import Mathlib

/-!
Verification development for the transdoc chapter-format parser.

The Rust sources (src/tokenizer.rs, src/components.rs, src/parser.rs,
src/errors.rs, src/syntax.rs) are shallowly embedded below: input text is a
`List Char` of Unicode scalars (nom's str input counts positions in chars),
tokens carry their exact slice of input, the nom-8 combinators used by the
code are modelled with their error semantics (`MatchErr::or` keeps the first
alternative's error, `MatchErr::append` keeps the inner error), and the
stateful resolution pass `Chapter::process` is modelled by explicit
dictionary threading.  HashMaps are modelled as association lists whose
insert overwrites an existing key in place (HashMap collect semantics,
last write wins) — equal lists model equal maps.
-/

namespace Transdoc

/-- Token kinds of the lexer (src/tokenizer.rs, enum TokenType). -/
inductive TokenType where
  | NewLine
  | WhiteSpace
  | Comment
  | AngleStart
  | AngleEnd
  | At
  | Equal
  | Semicolon
  | Dash
  | Char
deriving DecidableEq

/-- A lexer token: kind plus the exact slice of input it covers
(src/tokenizer.rs, struct Token). -/
structure Token where
  ty : TokenType
  content : List Char
deriving DecidableEq

/-- Space or tab, the characters accepted by the whitespace rule. -/
def isSpaceTab (c : Char) : Bool := c == ' ' || c == '\t'

/-- whitespace rule: `recognize(many1(alt((tag "\t", tag " "))))` — the
maximal run of one or more space/tab characters (src/tokenizer.rs). -/
def whitespaceTk (i : List Char) : Option (Token × List Char) :=
  match i.takeWhile isSpaceTab with
  | [] => none
  | c :: cs => some (⟨.WhiteSpace, c :: cs⟩, i.dropWhile isSpaceTab)

/-- newline rule: `alt((tag "\n\r", tag "\r\n", tag "\n"))` in that order
(src/tokenizer.rs). -/
def newlineTk : List Char → Option (Token × List Char)
  | '\n' :: '\r' :: rest => some (⟨.NewLine, ['\n', '\r']⟩, rest)
  | '\r' :: '\n' :: rest => some (⟨.NewLine, ['\r', '\n']⟩, rest)
  | '\n' :: rest => some (⟨.NewLine, ['\n']⟩, rest)
  | _ => none

/-- Characters a comment body may contain: anything but newline and CR. -/
def notLineEnd (c : Char) : Bool := !(c == '\n' || c == '\r')

/-- comment rule: `recognize(pair(tag "#", many0(is_not "\n\r")))`
(src/tokenizer.rs). -/
def commentTk : List Char → Option (Token × List Char)
  | '#' :: rest =>
      some (⟨.Comment, '#' :: rest.takeWhile notLineEnd⟩, rest.dropWhile notLineEnd)
  | _ => none

/-- symbols rule: the fixed symbol alternatives `<<`, `>>`, `@`, `=`, `;`,
`---` (src/tokenizer.rs); their leading characters are pairwise distinct so
pattern order matches the alt order. -/
def symbolsTk : List Char → Option (Token × List Char)
  | '<' :: '<' :: rest => some (⟨.AngleStart, ['<', '<']⟩, rest)
  | '>' :: '>' :: rest => some (⟨.AngleEnd, ['>', '>']⟩, rest)
  | '@' :: rest => some (⟨.At, ['@']⟩, rest)
  | '=' :: rest => some (⟨.Equal, ['=']⟩, rest)
  | ';' :: rest => some (⟨.Semicolon, [';']⟩, rest)
  | '-' :: '-' :: '-' :: rest => some (⟨.Dash, ['-', '-', '-']⟩, rest)
  | _ => none

/-- known_token: `alt((whitespace, newline, comment, symbols))`
(src/tokenizer.rs). -/
def known_token (i : List Char) : Option (Token × List Char) :=
  match whitespaceTk i with
  | some r => some r
  | none =>
    match newlineTk i with
    | some r => some r
    | none =>
      match commentTk i with
      | some r => some r
      | none => symbolsTk i

/-- Prepend one token to an accumulated (residual, tokens) pair. -/
def consTok (t : Token) (p : List Char × List Token) : List Char × List Token :=
  (p.1, t :: p.2)

/-- Fuelled loop of `all_tokens = many0(alt((known_token, character)))`
(src/tokenizer.rs): at each step try a known token, else the one-scalar
Char fallback; stop on empty input.  Every step consumes at least one
character, so fuel `i.length` always suffices (all_tokens_go_spec). -/
def all_tokens_go : Nat → List Char → List Char × List Token
  | 0, i => (i, [])
  | fuel + 1, i =>
    match known_token i with
    | some (t, rest) => consTok t (all_tokens_go fuel rest)
    | none =>
      match i with
      | [] => ([], [])
      | c :: rest => consTok ⟨.Char, [c]⟩ (all_tokens_go fuel rest)

/-- all_tokens (src/tokenizer.rs): returns the residual input together with
the token list, like the Rust function returns `(res, tokens)`. -/
def all_tokens (s : List Char) : List Char × List Token :=
  all_tokens_go s.length s

/-- get_tokens (src/tokenizer.rs): `none` models the two panic branches
(parser error / leftover input); both are proved unreachable. -/
def get_tokens (s : List Char) : Option (List Token) :=
  if (all_tokens s).1 = [] then some (all_tokens s).2 else none

/-- Error kinds (src/errors.rs, enum ParseErrorType). -/
inductive ParseErrorType where
  | LogicalError (s : String)
  | Unclosed (s : String)
  | Incomplete
  | SyntaxError
  | TokenMismatch (t : TokenType)
  | Custom (s : String)
deriving DecidableEq

/-- A combinator-level error (src/errors.rs, struct MatchErr): the kind and
the residual token list at the failure point (`internal.input`); the nom
ErrorKind code is never observed by the program so it is not modelled. -/
structure MatchErr where
  ty : ParseErrorType
  input : List Token
deriving DecidableEq

/-- MatchErr::or (src/errors.rs): keeps `self.ty`, and the internal nom
error is `Error::or(other.internal, self.internal)`, which by nom's default
`or` returns its second argument, i.e. `self.internal`.  Net effect: the
first error wins entirely. -/
def MatchErr.or (a _b : MatchErr) : MatchErr := a

/-- MatchErr::append (src/errors.rs): keeps `other.ty`, and nom's default
`Error::append` returns `other.internal`; net effect, the inner error is
preserved unchanged. -/
def MatchErr.append (_i : List Token) (e : MatchErr) : MatchErr := e

/-- UTF-8 byte length of a char list; Rust `str::len` counts bytes. -/
def utf8_len (s : List Char) : Nat := (s.map Char.utf8Size).sum

/-- Position-resolved parse error (src/errors.rs, struct ParseError). -/
structure ParseError where
  ty : ParseErrorType
  line : Nat
  col : Nat
  linestr : List Char
deriving DecidableEq

/-- ParseError::new (src/errors.rs): the consumed prefix of the token list
determines line (1 + newline count) and column (1 + byte length of the
tokens on the current line); the reported line text extends through the
residual up to the next NewLine. -/
def ParseError.new (tokens rest : List Token) (ty : ParseErrorType) : ParseError :=
  let consumed := tokens.take (tokens.length - rest.length)
  let line := 1 + (consumed.filter (fun t => t.ty = .NewLine)).length
  let curr0 := consumed.foldl (fun acc t => if t.ty = .NewLine then [] else acc ++ [t]) []
  let col := (curr0.map (fun t => utf8_len t.content)).sum + 1
  let curr := curr0 ++ rest.takeWhile (fun t => t.ty ≠ .NewLine)
  { ty := ty, line := line, col := col, linestr := (curr.map Token.content).flatten }

/-- A parser over the token cursor: nom's
`TokenList -> IResult<TokenList, T, MatchErr>`.  The code constructs no
`Err::Failure` and no `Err::Incomplete` (the one `split_at_position`
that could produce `Incomplete` is never called), so a single error case
is a faithful model of `nom::Err<MatchErr>`. -/
def P (α : Type) : Type := List Token → Except MatchErr (List Token × α)

/-- The single parametrized one-token matcher generated per kind by the
`one_token!` macro (src/components.rs): on a matching first token consume
it, on a mismatch fail with `TokenMismatch(first.ty)`, on empty input fail
with `Incomplete`; the error position is the whole input to the matcher. -/
def one_token (ty : TokenType) : P Token := fun i =>
  match i with
  | first :: rest =>
    if first.ty = ty then .ok (rest, first)
    else .error ⟨.TokenMismatch first.ty, i⟩
  | [] => .error ⟨.Incomplete, i⟩

def newline : P Token := one_token .NewLine
def space : P Token := one_token .WhiteSpace
def comment : P Token := one_token .Comment
def angle_start : P Token := one_token .AngleStart
def angle_end : P Token := one_token .AngleEnd
def at' : P Token := one_token .At
def equal : P Token := one_token .Equal
def semicolon : P Token := one_token .Semicolon
def dash : P Token := one_token .Dash
def character : P Token := one_token .Char

/-- nom `map`: transform the value, propagate errors. -/
def pmap {α β : Type} (p : P α) (f : α → β) : P β := fun i =>
  match p i with
  | .ok (r, v) => .ok (r, f v)
  | .error e => .error e

/-- nom `pair` (and the sequential half of every tuple): run both in
sequence, first failure propagates unchanged. -/
def pairP {α β : Type} (p : P α) (q : P β) : P (α × β) := fun i =>
  match p i with
  | .error e => .error e
  | .ok (i1, a) =>
    match q i1 with
    | .error e => .error e
    | .ok (i2, b) => .ok (i2, (a, b))

/-- nom `preceded`. -/
def precededP {α β : Type} (p : P α) (q : P β) : P β :=
  pmap (pairP p q) Prod.snd

/-- nom `terminated`. -/
def terminatedP {α β : Type} (p : P α) (q : P β) : P α :=
  pmap (pairP p q) Prod.fst

/-- nom `delimited`. -/
def delimitedP {α β γ : Type} (a : P α) (b : P β) (c : P γ) : P β :=
  pmap (pairP a (pairP b c)) (fun x => x.2.1)

/-- nom `separated_pair`. -/
def sepPairP {α β γ : Type} (a : P α) (sep : P β) (b : P γ) : P (α × γ) :=
  pmap (pairP a (pairP sep b)) (fun x => (x.1, x.2.2))

/-- nom `opt`: a recoverable failure yields `none` without consuming. -/
def opt {α : Type} (p : P α) : P (Option α) := fun i =>
  match p i with
  | .ok (r, v) => .ok (r, some v)
  | .error _ => .ok (i, none)

/-- nom `alt` of two branches: errors are folded with `MatchErr.or` and the
final `E::append(input, Alt, err)` keeps the folded error, so the first
branch's error is returned when all branches fail.  nom's alt over longer
tuples equals nested two-branch alts under this error semantics. -/
def alt2 {α : Type} (p q : P α) : P α := fun i =>
  match p i with
  | .ok r => .ok r
  | .error e1 =>
    match q i with
    | .ok r => .ok r
    | .error e2 => .error (MatchErr.append i (MatchErr.or e1 e2))

/-- Fuelled loop of nom 8 `many(0..)`: stop at the first recoverable
failure; a successful inner parse that consumes nothing triggers the
infinite-loop guard `from_error_kind(input, Many)` (kind SyntaxError).
Fuel `input.length + 1` always suffices, since every continuing iteration
consumes at least one token; the fuel-0 branch is unreachable and returns
the same shape of error as the guard. -/
def many0_go {α : Type} (p : P α) : Nat → List Token → Except MatchErr (List Token × List α)
  | 0, i => .error ⟨.SyntaxError, i⟩
  | fuel + 1, i =>
    match p i with
    | .error _ => .ok (i, [])
    | .ok (r, v) =>
      if r.length < i.length then
        match many0_go p fuel r with
        | .ok (r2, vs) => .ok (r2, v :: vs)
        | .error e => .error e
      else .error ⟨.SyntaxError, i⟩

/-- nom `many0`. -/
def many0 {α : Type} (p : P α) : P (List α) := fun i =>
  many0_go p (i.length + 1) i

/-- nom `many1` = `many(1..)`: a failure of the first iteration is returned
as `E::append(input, Many, e) = e`; afterwards the loop continues exactly
like `many0` from the rest. -/
def many1 {α : Type} (p : P α) : P (List α) := fun i =>
  match p i with
  | .error e => .error (MatchErr.append i e)
  | .ok (r, v) =>
    if r.length < i.length then
      match many0_go p (r.length + 1) r with
      | .ok (r2, vs) => .ok (r2, v :: vs)
      | .error e => .error e
    else .error ⟨.SyntaxError, i⟩

/-- Fuelled loop of nom `separated_list1` after the first element: parse a
separator (failure ends the list), guard against a non-consuming separator,
then parse an element (failure ends the list, backtracking to before the
separator). -/
def sepList1_go {α β : Type} (sep : P β) (elem : P α) :
    Nat → List Token → List α → Except MatchErr (List Token × List α)
  | 0, i1, _ => .error ⟨.SyntaxError, i1⟩
  | fuel + 1, i1, acc =>
    match sep i1 with
    | .error _ => .ok (i1, acc)
    | .ok (i2, _) =>
      if i2.length < i1.length then
        match elem i2 with
        | .error _ => .ok (i1, acc)
        | .ok (i3, v) => sepList1_go sep elem fuel i3 (acc ++ [v])
      else .error ⟨.SyntaxError, i2⟩

/-- nom `separated_list1`: the first element's failure propagates. -/
def sepList1 {α β : Type} (sep : P β) (elem : P α) : P (List α) := fun i =>
  match elem i with
  | .error e => .error e
  | .ok (i1, v) => sepList1_go sep elem (i1.length + 1) i1 [v]

/-- err_ctx (src/components.rs): overwrite a failure's kind, keeping its
position; unused by the grammar but part of the combinator layer. -/
def err_ctx {α : Type} (ty : ParseErrorType) (p : P α) : P α := fun i =>
  match p i with
  | .ok r => .ok r
  | .error e => .error { e with ty := ty }

/-- maybe_space (src/components.rs): `preceded(many0(space), f)`. -/
def maybe_space {α : Type} (f : P α) : P α := precededP (many0 space) f

/-- after_space (src/components.rs): `preceded(many1(space), f)`. -/
def after_space {α : Type} (f : P α) : P α := precededP (many1 space) f

/-- many0_newlines (src/components.rs):
`value((), many0(alt((space, newline, comment))))`. -/
def many0_newlines : P Unit :=
  pmap (many0 (alt2 space (alt2 newline comment))) (fun _ => ())

/-- many1_newlines (src/components.rs):
`value((), many1(maybe_space(alt((newline, comment)))))`. -/
def many1_newlines : P Unit :=
  pmap (many1 (maybe_space (alt2 newline comment))) (fun _ => ())

/-- maybe_newline (src/components.rs): `preceded(many0_newlines, f)`. -/
def maybe_newline {α : Type} (f : P α) : P α := precededP many0_newlines f

/-- trailing_newlines (src/components.rs): `terminated(f, many0_newlines)`. -/
def trailing_newlines {α : Type} (f : P α) : P α := terminatedP f many0_newlines

/-- newline_terminated (src/components.rs): `terminated(f, many1_newlines)`. -/
def newline_terminated {α : Type} (f : P α) : P α := terminatedP f many1_newlines

/-- string_val (src/components.rs): one-or-more Char/WhiteSpace tokens,
their contents concatenated. -/
def string_val : P (List Char) :=
  pmap (many1 (alt2 character space)) (fun ch => (ch.map Token.content).flatten)

/-- Strings extracted from the input, modelled as lists of scalars. -/
abbrev Str := List Char

/-- Unicode White_Space test, the exact set used by Rust
`char::is_whitespace` (the White_Space property code points). -/
def char_is_whitespace (c : Char) : Bool :=
  let n := c.toNat
  (0x09 ≤ n && n ≤ 0x0D) || n = 0x20 || n = 0x85 || n = 0xA0 || n = 0x1680 ||
    (0x2000 ≤ n && n ≤ 0x200A) || n = 0x2028 || n = 0x2029 || n = 0x202F ||
    n = 0x205F || n = 0x3000

/-- Rust `str::trim`: drop Unicode whitespace from both ends. -/
def trimStr (s : Str) : Str :=
  ((s.dropWhile char_is_whitespace).reverse.dropWhile char_is_whitespace).reverse

/-- Lookup in an association list modelling a HashMap. -/
def alist_get {ν : Type} : List (Str × ν) → Str → Option ν
  | [], _ => none
  | (k', v) :: t, k => if k' = k then some v else alist_get t k

/-- HashMap::insert semantics: overwrite the value at an existing key,
otherwise add the binding. -/
def alist_insert {ν : Type} : List (Str × ν) → Str → ν → List (Str × ν)
  | [], k, v => [(k, v)]
  | (k', v') :: t, k, v =>
    if k' = k then (k', v) :: t else (k', v') :: alist_insert t k v

/-- Collect a key/value sequence into a map, later occurrences of a key
overwriting earlier ones (`Vec::into_iter().collect::<HashMap<_,_>>()`). -/
def collectMap {ν : Type} (l : List (Str × ν)) : List (Str × ν) :=
  l.foldl (fun m kv => alist_insert m kv.1 kv.2) []

/-- One piece of original-language text (src/syntax.rs, enum OrgFragment). -/
inductive OrgFragment where
  | Simple (s : Str)
  | Meaning (s : Str) (m : List Str)
  | DictLookup (s : Str)
deriving DecidableEq

/-- A translation block (src/syntax.rs, struct Translation). -/
structure Translation where
  content : Str
  attrs : List (Str × Str)
deriving DecidableEq

/-- A sentence (src/syntax.rs, struct Sentence). -/
structure Sentence where
  label : Str
  original : List OrgFragment
  orgattrs : List (Str × Str)
  translations : List (Str × Translation)
deriving DecidableEq

/-- A chapter (src/syntax.rs, struct Chapter). -/
structure Chapter where
  title : Str
  language : Str
  tl_languages : List Str
  dictionary : List (Str × List Str)
  sentences : List Sentence
  attrs : List (Str × Str)
deriving DecidableEq

/-- linetag (src/parser.rs):
`delimited(at, maybe_space(string_val), many1_newlines)`. -/
def linetag : P Str := delimitedP at' (maybe_space string_val) many1_newlines

/-- str_trimmed (src/parser.rs): `map(string_val, trim)`. -/
def str_trimmed : P Str := pmap string_val trimStr

/-- dict_meaning (src/parser.rs): trimmed word, `=`, one-or-more
semicolon-separated trimmed meanings. -/
def dict_meaning : P OrgFragment :=
  pmap
    (sepPairP str_trimmed (maybe_space equal)
      (maybe_space (sepList1 (maybe_space semicolon) (maybe_space str_trimmed))))
    (fun p => .Meaning p.1 p.2)

/-- org_frag_dict (src/parser.rs): `<<` then either a meaning definition or
a bare word as dictionary lookup, then `>>`. -/
def org_frag_dict : P OrgFragment :=
  delimitedP angle_start
    (maybe_space (alt2 dict_meaning (pmap str_trimmed .DictLookup)))
    (maybe_space angle_end)

/-- lines_separator (src/parser.rs): `---` plus an optional trimmed label,
newline terminated. -/
def lines_separator : P (Option Str) :=
  newline_terminated (precededP dash (maybe_space (opt str_trimmed)))

/-- key_val (src/parser.rs): trimmed key `=` trimmed value. -/
def key_val : P (Str × Str) :=
  sepPairP str_trimmed (maybe_space equal) (maybe_space str_trimmed)

/-- original_sentence (src/parser.rs): zero-or-more fragments until the
line terminator. -/
def original_sentence : P (List OrgFragment) :=
  newline_terminated (many0 (alt2 org_frag_dict (pmap string_val .Simple)))

/-- attrs (src/parser.rs): zero-or-more key/value lines collected into a
map, last write wins. -/
def attrs : P (List (Str × Str)) :=
  pmap (many0 (newline_terminated (maybe_newline key_val))) collectMap

/-- tl_sentence (src/parser.rs): a newline-terminated translation text plus
an optional attrs block. -/
def tl_sentence : P Translation :=
  pmap (pairP (newline_terminated string_val) (maybe_newline attrs))
    (fun p => ⟨p.1, p.2⟩)

/-- sentence (src/parser.rs): linetag, original line, attrs, then pairs of
separator and translation; unlabeled separators get their 0-based index
(as a decimal string) as label, and the translation map is collected with
last write wins. -/
def sentence : P Sentence :=
  pmap
    (pairP linetag
      (pairP (maybe_newline original_sentence)
        (pairP (maybe_newline attrs)
          (many0 (pairP (maybe_newline lines_separator) (maybe_newline tl_sentence))))))
    (fun q =>
      { label := q.1
        original := q.2.1
        orgattrs := q.2.2.1
        translations :=
          collectMap
            (q.2.2.2.enum.map
              (fun iv => ((iv.2.1).getD (Nat.repr iv.1).toList, iv.2.2))) })

/-- Rust `str::split(",")`: split on commas, yielding at least one piece. -/
def split_comma : Str → List Str
  | [] => [[]]
  | c :: rest =>
    match split_comma rest with
    | [] => [[c]]
    | h :: t => if c = ',' then [] :: h :: t else (c :: h) :: t

/-- The filesystem as seen by `std::fs::read_to_string`: path to contents,
`none` for a missing or unreadable file. -/
def FS : Type := Str → Option Str

/-- load_dictionary (src/parser.rs): tokenize the dictionary file, parse it
with `trailing_newlines(attrs)`, and turn each pair into a one-meaning
entry; parse failures or an unreadable file degrade to an empty dictionary
(errors are only printed). -/
def load_dictionary (fs : FS) (file : Str) : List (Str × List Str) :=
  match fs file with
  | none => []
  | some s =>
    match trailing_newlines attrs (all_tokens s).2 with
    | .ok (_, a) => a.map (fun kv => (kv.1, [kv.2]))
    | .error _ => []

/-- The closure the chapter rule maps over its parsed parts
(src/parser.rs, the `map(pair(attrs, many0(...)), |(a, s)| Chapter {...})`
body): recognized keys title, language, tranlations [sic], dictionary. -/
def chapterOfParts (fs : FS) (p : List (Str × Str) × List Sentence) : Chapter :=
  { title := (alist_get p.1 "title".toList).getD "Unnamed Chapter".toList
    language := (alist_get p.1 "language".toList).getD "english".toList
    tl_languages :=
      match alist_get p.1 "tranlations".toList with
      | some v => split_comma v
      | none => []
    dictionary :=
      match alist_get p.1 "dictionary".toList with
      | some d => load_dictionary fs d
      | none => []
    sentences := p.2
    attrs := p.1 }

/-- chapter (src/parser.rs): a leading attrs block followed by zero-or-more
sentences. -/
def chapter (fs : FS) : P Chapter :=
  pmap (pairP attrs (many0 (maybe_newline sentence))) (chapterOfParts fs)

/-- Chapter::from_str (src/parser.rs): tokenize, parse the chapter rule; if
tokens remain, re-parse the residual as one more sentence to produce the
diagnostic.  The `LogicalError` results model the two panics (`get_tokens`
aborting, and `expect_err` on a succeeding re-parse); both are proved
unreachable. -/
def chapter_from_str (fs : FS) (s : List Char) : Except ParseError Chapter :=
  match get_tokens s with
  | none => .error ⟨.LogicalError "tokenizer aborted", 0, 0, []⟩
  | some tokens =>
    match chapter fs tokens with
    | .ok (rest, chap) =>
      if rest.isEmpty then .ok chap
      else
        match maybe_newline sentence rest with
        | .error err => .error (ParseError.new tokens err.input err.ty)
        | .ok _ => .error ⟨.LogicalError "residual sentence reparse succeeded", 0, 0, []⟩
    | .error e => .error (ParseError.new tokens e.input e.ty)

/-- One step of the resolution pass (src/syntax.rs, Chapter::process body):
a Meaning inserts its word if absent (`Entry::Vacant`, never overwriting),
a DictLookup is replaced by a Meaning when its word is known, Simple text
is untouched. -/
def processFrag (d : List (Str × List Str)) :
    OrgFragment → List (Str × List Str) × OrgFragment
  | .Simple s => (d, .Simple s)
  | .Meaning s m =>
    match alist_get d s with
    | some _ => (d, .Meaning s m)
    | none => (d ++ [(s, m)], .Meaning s m)
  | .DictLookup s =>
    match alist_get d s with
    | some m => (d, .Meaning s m)
    | none => (d, .DictLookup s)

/-- The pass over one sentence's fragments, threading the dictionary. -/
def processFrags (d : List (Str × List Str)) :
    List OrgFragment → List (Str × List Str) × List OrgFragment
  | [] => (d, [])
  | f :: fs =>
    match processFrag d f with
    | (d1, f1) =>
      match processFrags d1 fs with
      | (d2, fs1) => (d2, f1 :: fs1)

/-- The pass over all sentences, in order. -/
def processSentences (d : List (Str × List Str)) :
    List Sentence → List (Str × List Str) × List Sentence
  | [] => (d, [])
  | s :: ss =>
    match processFrags d s.original with
    | (d1, o1) =>
      match processSentences d1 ss with
      | (d2, ss1) => (d2, { s with original := o1 } :: ss1)

/-- Chapter::process (src/syntax.rs): the resolution pass. -/
def Chapter.process (c : Chapter) : Chapter :=
  match processSentences c.dictionary c.sentences with
  | (d, ss) => { c with dictionary := d, sentences := ss }

deriving instance DecidableEq for Except

/-- A filesystem with no readable files; `Chapter::from_str` touches the
filesystem only when a `dictionary` attr names a file. -/
def fsNone : FS := fun _ => none

/-- The sentence expected from the end-to-end scenario input. -/
def sentC4 : Sentence :=
  ⟨"s1".toList,
   [OrgFragment.Simple "Hello ".toList, OrgFragment.DictLookup "world".toList],
   [],
   [("0".toList, ⟨"Bonjour".toList, []⟩)]⟩

/-- The chapter expected from the end-to-end scenario input. -/
def expC4 : Chapter :=
  ⟨"Demo".toList, "english".toList, [], [], [sentC4],
   [("title".toList, "Demo".toList)]⟩

/-- The parse of `"@s1\n<<x>> <<x = m>>\n"`: a dictionary lookup of `x`
occurring before the inline definition of `x`. -/
def lookupBeforeDef : Chapter :=
  ⟨"Unnamed Chapter".toList, "english".toList, [], [],
   [⟨"s1".toList,
     [OrgFragment.DictLookup "x".toList, OrgFragment.Simple " ".toList,
      OrgFragment.Meaning "x".toList ["m".toList]], [], []⟩],
   []⟩

/-- A chapter whose inline definition of `x` precedes its lookup. -/
def defBeforeLookup : Chapter :=
  ⟨[], [], [], [],
   [⟨[], [OrgFragment.Meaning "x".toList ["m".toList],
          OrgFragment.DictLookup "x".toList], [], []⟩],
   []⟩

/-- A chapter defining the word `x` twice with different meanings, with a
lookup of `x` in between (the dictionary-first-wins scenario, made
parametric in the word and the two meanings). -/
def twoDefsChapter (x m1 m2 : Str) : Chapter :=
  ⟨[], [], [], [],
   [⟨[], [OrgFragment.Meaning x [m1], OrgFragment.DictLookup x,
          OrgFragment.Meaning x [m2]], [], []⟩],
   []⟩

/-- Dictionary inclusion: every binding of `d` is a binding of `D`.  The
resolution pass only ever extends the dictionary, so this is preserved
along the pass. -/
def dict_le (d D : List (Str × List Str)) : Prop :=
  ∀ k v, alist_get d k = some v → alist_get D k = some v

/-- No remaining dictionary lookup of a chapter mentions a word that its
dictionary knows; under this condition a second resolution pass has
nothing left to rewrite. -/
def no_resolvable_lookup (c : Chapter) : Bool :=
  c.sentences.all fun s =>
    s.original.all fun f =>
      match f with
      | .DictLookup w => (alist_get c.dictionary w).isNone
      | _ => true

/-- A parser that never grows its input: the residual of a success is at
most as long as the input.  Every parser built from the combinators above
is monotone. -/
def Mono {α : Type} (p : P α) : Prop :=
  ∀ ⦃i r : List Token⦄ ⦃v : α⦄, p i = .ok (r, v) → r.length ≤ i.length

/-- A parser that consumes on success: the residual of a success is
strictly shorter than the input. -/
def Consumes {α : Type} (p : P α) : Prop :=
  ∀ ⦃i r : List Token⦄ ⦃v : α⦄, p i = .ok (r, v) → r.length < i.length

/-! Lexer lemmas: every known-token rule consumes a nonempty prefix whose
text is exactly the token content. -/

theorem whitespaceTk_spec {i : List Char} {t : Token} {rest : List Char}
    (h : whitespaceTk i = some (t, rest)) :
    t.content ++ rest = i ∧ rest.length < i.length := by
  unfold whitespaceTk at h
  cases htw : i.takeWhile isSpaceTab with
  | nil => rw [htw] at h; exact absurd h (by simp)
  | cons c cs =>
    rw [htw] at h
    have hc : t.content = c :: cs ∧ rest = i.dropWhile isSpaceTab := by
      cases h; exact ⟨rfl, rfl⟩
    have hsplit : i.takeWhile isSpaceTab ++ i.dropWhile isSpaceTab = i :=
      List.takeWhile_append_dropWhile _ _
    rw [htw] at hsplit
    constructor
    · rw [hc.1, hc.2]; exact hsplit
    · have := congrArg List.length hsplit
      simp only [List.length_append, List.length_cons] at this
      rw [hc.2]; omega

theorem newlineTk_spec {i : List Char} {t : Token} {rest : List Char}
    (h : newlineTk i = some (t, rest)) :
    t.content ++ rest = i ∧ rest.length < i.length := by
  unfold newlineTk at h
  split at h <;> simp_all <;> simp [← h.1, ← h.2] <;> omega

theorem commentTk_spec {i : List Char} {t : Token} {rest : List Char}
    (h : commentTk i = some (t, rest)) :
    t.content ++ rest = i ∧ rest.length < i.length := by
  unfold commentTk at h
  split at h
  · next cs =>
    have hc : t.content = '#' :: cs.takeWhile notLineEnd ∧ rest = cs.dropWhile notLineEnd := by
      cases h; exact ⟨rfl, rfl⟩
    have hsplit : cs.takeWhile notLineEnd ++ cs.dropWhile notLineEnd = cs :=
      List.takeWhile_append_dropWhile _ _
    have hlen : (cs.dropWhile notLineEnd).length ≤ cs.length := by
      have := congrArg List.length hsplit
      simp only [List.length_append] at this
      omega
    constructor
    · rw [hc.1, hc.2]; simp [hsplit]
    · rw [hc.2]; simp only [List.length_cons]; omega
  · exact absurd h (by simp)

theorem symbolsTk_spec {i : List Char} {t : Token} {rest : List Char}
    (h : symbolsTk i = some (t, rest)) :
    t.content ++ rest = i ∧ rest.length < i.length := by
  unfold symbolsTk at h
  split at h <;> simp_all <;> simp [← h.1, ← h.2] <;> omega

theorem known_token_spec {i : List Char} {t : Token} {rest : List Char}
    (h : known_token i = some (t, rest)) :
    t.content ++ rest = i ∧ rest.length < i.length := by
  unfold known_token at h
  cases hw : whitespaceTk i with
  | some r => rw [hw] at h; cases h; exact whitespaceTk_spec hw
  | none =>
    rw [hw] at h
    cases hn : newlineTk i with
    | some r => rw [hn] at h; cases h; exact newlineTk_spec hn
    | none =>
      rw [hn] at h
      cases hcm : commentTk i with
      | some r => rw [hcm] at h; cases h; exact commentTk_spec hcm
      | none => rw [hcm] at h; exact symbolsTk_spec h

/-- With fuel at least the input length, the tokenizer loop consumes the
whole input and the produced tokens concatenate back to it. -/
theorem all_tokens_go_succ (f : Nat) (i : List Char) :
    all_tokens_go (f + 1) i =
      match known_token i with
      | some (t, rest) => consTok t (all_tokens_go f rest)
      | none =>
        match i with
        | [] => ([], [])
        | c :: rest => consTok ⟨.Char, [c]⟩ (all_tokens_go f rest) := rfl

theorem all_tokens_go_spec :
    ∀ (fuel : Nat) (i : List Char), i.length ≤ fuel →
      (all_tokens_go fuel i).1 = [] ∧
      (((all_tokens_go fuel i).2).map Token.content).flatten = i := by
  intro fuel
  induction fuel with
  | zero =>
    intro i hi
    have : i = [] := List.length_eq_zero.mp (Nat.le_zero.mp hi)
    subst this
    exact ⟨rfl, rfl⟩
  | succ f ih =>
    intro i hi
    rw [all_tokens_go_succ]
    cases hk : known_token i with
    | some r =>
      obtain ⟨t, rest⟩ := r
      obtain ⟨hjoin, hlen⟩ := known_token_spec hk
      have hrest : rest.length ≤ f := by omega
      obtain ⟨h1, h2⟩ := ih rest hrest
      refine ⟨by simpa [consTok] using h1, ?_⟩
      simp only [consTok, List.map_cons, List.flatten_cons]
      rw [h2, hjoin]
    | none =>
      cases i with
      | nil => exact ⟨rfl, rfl⟩
      | cons c rest =>
        have hrest : rest.length ≤ f := by
          simp only [List.length_cons] at hi; omega
        obtain ⟨h1, h2⟩ := ih rest hrest
        refine ⟨by simpa [consTok] using h1, ?_⟩
        simp only [consTok, List.map_cons, List.flatten_cons]
        rw [h2]
        rfl

/-- The tokenizer consumes every input completely. -/
theorem all_tokens_complete (s : List Char) : (all_tokens s).1 = [] :=
  (all_tokens_go_spec s.length s le_rfl).1

/-- The tokens produced concatenate back to the input. -/
theorem all_tokens_join (s : List Char) :
    (((all_tokens s).2).map Token.content).flatten = s :=
  (all_tokens_go_spec s.length s le_rfl).2

/-- get_tokens never hits its panic branches. -/
theorem get_tokens_eq (s : List Char) : get_tokens s = some (all_tokens s).2 := by
  unfold get_tokens
  rw [if_pos (all_tokens_complete s)]

/-! Resolution-pass lemmas: the dictionary only grows along the pass, a
processed Meaning's word is always present afterwards, and a second pass
leaves a grown dictionary unchanged. -/

theorem dict_le_refl (d : List (Str × List Str)) : dict_le d d := fun _ _ h => h

theorem dict_le_trans {a b c : List (Str × List Str)}
    (h1 : dict_le a b) (h2 : dict_le b c) : dict_le a c :=
  fun k v h => h2 k v (h1 k v h)

theorem alist_get_append_left {ν : Type} {d : List (Str × ν)} {k : Str} {v : ν}
    (l : List (Str × ν)) (h : alist_get d k = some v) :
    alist_get (d ++ l) k = some v := by
  induction d with
  | nil => simp [alist_get] at h
  | cons p t ih =>
    obtain ⟨k', v'⟩ := p
    by_cases hk : k' = k
    · simp only [List.cons_append, alist_get, if_pos hk] at h ⊢
      exact h
    · simp only [List.cons_append, alist_get, if_neg hk] at h ⊢
      exact ih h

theorem alist_get_append_self {ν : Type} {d : List (Str × ν)} {k : Str}
    (h : alist_get d k = none) (v : ν) :
    alist_get (d ++ [(k, v)]) k = some v := by
  induction d with
  | nil => simp [alist_get]
  | cons p t ih =>
    obtain ⟨k', v'⟩ := p
    by_cases hk : k' = k
    · simp only [alist_get, if_pos hk] at h
      exact absurd h (by simp)
    · simp only [List.cons_append, alist_get, if_neg hk] at h ⊢
      exact ih h

theorem processFrag_dict_le (d : List (Str × List Str)) (f : OrgFragment) :
    dict_le d (processFrag d f).1 := by
  cases f with
  | Simple s => exact dict_le_refl d
  | Meaning s m =>
    cases hg : alist_get d s with
    | some v => simp only [processFrag, hg]; exact dict_le_refl d
    | none =>
      simp only [processFrag, hg]
      exact fun k v h => alist_get_append_left _ h
  | DictLookup s =>
    cases hg : alist_get d s with
    | some v => simp only [processFrag, hg]; exact dict_le_refl d
    | none => simp only [processFrag, hg]; exact dict_le_refl d

theorem processFrags_dict_le (fs : List OrgFragment) :
    ∀ d, dict_le d (processFrags d fs).1 := by
  induction fs with
  | nil => intro d; exact dict_le_refl d
  | cons f fs ih =>
    intro d
    rcases hf : processFrag d f with ⟨da, f1⟩
    have h1 : dict_le d da := by
      have := processFrag_dict_le d f
      rwa [hf] at this
    have h2 := ih da
    simp only [processFrags, hf]
    rcases hr : processFrags da fs with ⟨d2, fs1⟩
    rw [hr] at h2
    exact dict_le_trans h1 h2

theorem processSentences_dict_le (ss : List Sentence) :
    ∀ d, dict_le d (processSentences d ss).1 := by
  induction ss with
  | nil => intro d; exact dict_le_refl d
  | cons s ss ih =>
    intro d
    rcases hf : processFrags d s.original with ⟨da, o1⟩
    have h1 : dict_le d da := by
      have := processFrags_dict_le s.original d
      rwa [hf] at this
    have h2 := ih da
    simp only [processSentences, hf]
    rcases hr : processSentences da ss with ⟨d2, ss1⟩
    rw [hr] at h2
    exact dict_le_trans h1 h2

theorem processFrag_meaning_present (d : List (Str × List Str)) (s : Str) (m : List Str) :
    ∃ v, alist_get (processFrag d (.Meaning s m)).1 s = some v := by
  cases hg : alist_get d s with
  | some v => exact ⟨v, by simp only [processFrag, hg]⟩
  | none => exact ⟨m, by simp only [processFrag, hg]; exact alist_get_append_self hg m⟩

theorem frags_second_pass (fs : List OrgFragment) :
    ∀ d d1 fs1, processFrags d fs = (d1, fs1) →
      ∀ D, dict_le d1 D →
        (processFrags D fs1).1 = D ∧
        ((∀ w, OrgFragment.DictLookup w ∈ fs1 → alist_get D w = none) →
          (processFrags D fs1).2 = fs1) := by
  induction fs with
  | nil =>
    intro d d1 fs1 h D _
    simp only [processFrags] at h
    injection h with h1 h2
    subst h1; subst h2
    exact ⟨rfl, fun _ => rfl⟩
  | cons f fs ih =>
    intro d d1 fs1 h D hD
    rcases hf : processFrag d f with ⟨da, f1⟩
    rcases hr : processFrags da fs with ⟨dr, fsr⟩
    simp only [processFrags, hf, hr] at h
    injection h with h1 h2
    subst h1; subst h2
    have hgrow : dict_le da D := by
      have := processFrags_dict_le fs da
      rw [hr] at this
      exact dict_le_trans this hD
    obtain ⟨ih1, ih2⟩ := ih da dr fsr hr D hD
    have fact1 : (processFrag D f1).1 = D ∧
        ((∀ w, OrgFragment.DictLookup w ∈ f1 :: fsr → alist_get D w = none) →
          processFrag D f1 = (D, f1)) := by
      cases f with
      | Simple s =>
        simp only [processFrag] at hf
        injection hf with hfa hfb
        subst hfa; subst hfb
        exact ⟨rfl, fun _ => rfl⟩
      | Meaning s m =>
        have hda : da = (processFrag d (.Meaning s m)).1 := by rw [hf]
        have hf1 : f1 = .Meaning s m := by
          cases hg : alist_get d s with
          | some v => simp only [processFrag, hg] at hf; injection hf with _ hb; exact hb.symm
          | none => simp only [processFrag, hg] at hf; injection hf with _ hb; exact hb.symm
        obtain ⟨v, hv⟩ := processFrag_meaning_present d s m
        rw [← hda] at hv
        have hvD : alist_get D s = some v := hgrow s v hv
        subst hf1
        constructor
        · simp only [processFrag, hvD]
        · intro _; simp only [processFrag, hvD]
      | DictLookup s =>
        cases hg : alist_get d s with
        | some m =>
          simp only [processFrag, hg] at hf
          injection hf with hfa hfb
          subst hfa
          have hvD : alist_get D s = some m := hgrow s m hg
          subst hfb
          constructor
          · simp only [processFrag, hvD]
          · intro _; simp only [processFrag, hvD]
        | none =>
          simp only [processFrag, hg] at hf
          injection hf with hfa hfb
          subst hfa; subst hfb
          constructor
          · cases hgD : alist_get D s with
            | some m => simp only [processFrag, hgD]
            | none => simp only [processFrag, hgD]
          · intro hall
            have hnone : alist_get D s = none := hall s (List.mem_cons_self _ _)
            simp only [processFrag, hnone]
    obtain ⟨Fdict, Ffrag⟩ := fact1
    constructor
    · rcases hDf : processFrag D f1 with ⟨Da, f1'⟩
      have hDa : Da = D := by rw [hDf] at Fdict; exact Fdict
      subst hDa
      simp only [processFrags, hDf]
      rcases hr2 : processFrags Da fsr with ⟨D2, fs2⟩
      rw [hr2] at ih1
      exact ih1
    · intro hall
      have hfrag : processFrag D f1 = (D, f1) := Ffrag hall
      have htail : (processFrags D fsr).2 = fsr :=
        ih2 (fun w hw => hall w (List.mem_cons_of_mem _ hw))
      simp only [processFrags, hfrag]
      rcases hr2 : processFrags D fsr with ⟨D2, fs2⟩
      rw [hr2] at htail
      simpa using htail

theorem sents_second_pass (ss : List Sentence) :
    ∀ d d1 ss1, processSentences d ss = (d1, ss1) →
      ∀ D, dict_le d1 D →
        (processSentences D ss1).1 = D ∧
        ((∀ w s, s ∈ ss1 → OrgFragment.DictLookup w ∈ s.original →
            alist_get D w = none) →
          (processSentences D ss1).2 = ss1) := by
  induction ss with
  | nil =>
    intro d d1 ss1 h D _
    simp only [processSentences] at h
    injection h with h1 h2
    subst h1; subst h2
    exact ⟨rfl, fun _ => rfl⟩
  | cons s ss ih =>
    intro d d1 ss1 h D hD
    rcases hf : processFrags d s.original with ⟨da, o1⟩
    rcases hr : processSentences da ss with ⟨dr, ssr⟩
    simp only [processSentences, hf, hr] at h
    injection h with h1 h2
    subst h1; subst h2
    have hgrow : dict_le da D := by
      have := processSentences_dict_le ss da
      rw [hr] at this
      exact dict_le_trans this hD
    obtain ⟨F1, F2⟩ := frags_second_pass s.original d da o1 hf D hgrow
    obtain ⟨ih1, ih2⟩ := ih da dr ssr hr D hD
    constructor
    · rcases hDf : processFrags D o1 with ⟨Da, o2⟩
      have hDa : Da = D := by rw [hDf] at F1; exact F1
      subst hDa
      simp only [processSentences, hDf]
      rcases hr2 : processSentences Da ssr with ⟨D2, ss2⟩
      rw [hr2] at ih1
      exact ih1
    · intro hall
      have ho : (processFrags D o1).2 = o1 :=
        F2 (fun w hw => hall w _ (List.mem_cons_self _ _) hw)
      have htail : (processSentences D ssr).2 = ssr :=
        ih2 (fun w s' hs' hw => hall w s' (List.mem_cons_of_mem _ hs') hw)
      rcases hDf : processFrags D o1 with ⟨Da, o2⟩
      have hDa : Da = D := by rw [hDf] at F1; exact F1
      subst hDa
      have ho2 : o2 = o1 := by rw [hDf] at ho; exact ho
      subst ho2
      simp only [processSentences, hDf]
      rcases hr2 : processSentences Da ssr with ⟨D2, ss2⟩
      rw [hr2] at htail
      simpa using htail

theorem no_resolvable_lookup_spec {c : Chapter} (h : no_resolvable_lookup c = true) :
    ∀ w s, s ∈ c.sentences → OrgFragment.DictLookup w ∈ s.original →
      alist_get c.dictionary w = none := by
  intro w s hs hw
  unfold no_resolvable_lookup at h
  rw [List.all_eq_true] at h
  have hs' := h s hs
  rw [List.all_eq_true] at hs'
  have hf := hs' _ hw
  simpa [Option.isNone_iff_eq_none] using hf

theorem process_second_pass (c : Chapter) :
    c.process.process.dictionary = c.process.dictionary ∧
    (no_resolvable_lookup c.process = true → c.process.process = c.process) := by
  rcases hp : processSentences c.dictionary c.sentences with ⟨Df, ss1⟩
  have hproc : c.process = { c with dictionary := Df, sentences := ss1 } := by
    unfold Chapter.process
    rw [hp]
  obtain ⟨S1, S2⟩ :=
    sents_second_pass c.sentences c.dictionary Df ss1 hp Df (dict_le_refl Df)
  rcases hq : processSentences Df ss1 with ⟨D2, ss2⟩
  have hD2 : D2 = Df := by rw [hq] at S1; exact S1
  have hproc2 : c.process.process = { c with dictionary := D2, sentences := ss2 } := by
    rw [hproc]
    unfold Chapter.process
    simp only [hq]
  constructor
  · rw [hproc2, hproc, hD2]
  · intro hcond
    have hss2 : ss2 = ss1 := by
      have hs := S2 (by
        intro w s hs hw
        have hres := no_resolvable_lookup_spec hcond w s (by rw [hproc]; exact hs) hw
        rwa [hproc] at hres)
      rw [hq] at hs
      exact hs
    rw [hproc2, hproc, hD2, hss2]

/-! Combinator lemmas: every parser built from the combinators moves only
forward in the token list; one-token matchers, many1, and their compounds
consume; many0 never fails over a consuming inner parser and, on success,
stops exactly where its inner parser fails. -/

theorem Consumes.mono {α : Type} {p : P α} (h : Consumes p) : Mono p :=
  fun _ _ _ hok => Nat.le_of_lt (h hok)

theorem one_token_consumes (ty : TokenType) : Consumes (one_token ty) := by
  intro i r v h
  cases i with
  | nil => exact absurd h (by simp [one_token])
  | cons first rest =>
    simp only [one_token] at h
    by_cases hty : first.ty = ty
    · rw [if_pos hty] at h
      simp only [Except.ok.injEq, Prod.mk.injEq] at h
      obtain ⟨rfl, -⟩ := h
      simp
    · rw [if_neg hty] at h
      exact absurd h (by simp)

theorem pmap_mono {α β : Type} {p : P α} (f : α → β) (hp : Mono p) :
    Mono (pmap p f) := by
  intro i r v h
  unfold pmap at h
  cases hpi : p i with
  | error e => rw [hpi] at h; exact absurd h (by simp)
  | ok x =>
    obtain ⟨r1, v1⟩ := x
    rw [hpi] at h
    simp only [Except.ok.injEq, Prod.mk.injEq] at h
    obtain ⟨rfl, -⟩ := h
    exact hp hpi

theorem pmap_consumes {α β : Type} {p : P α} (f : α → β) (hp : Consumes p) :
    Consumes (pmap p f) := by
  intro i r v h
  unfold pmap at h
  cases hpi : p i with
  | error e => rw [hpi] at h; exact absurd h (by simp)
  | ok x =>
    obtain ⟨r1, v1⟩ := x
    rw [hpi] at h
    simp only [Except.ok.injEq, Prod.mk.injEq] at h
    obtain ⟨rfl, -⟩ := h
    exact hp hpi

theorem pairP_mono {α β : Type} {p : P α} {q : P β} (hp : Mono p) (hq : Mono q) :
    Mono (pairP p q) := by
  intro i r v h
  unfold pairP at h
  cases hpi : p i with
  | error e => rw [hpi] at h; exact absurd h (by simp)
  | ok x =>
    obtain ⟨i1, a⟩ := x
    rw [hpi] at h
    simp only [] at h
    cases hqi : q i1 with
    | error e => rw [hqi] at h; exact absurd h (by simp)
    | ok y =>
      obtain ⟨i2, b⟩ := y
      rw [hqi] at h
      simp only [Except.ok.injEq, Prod.mk.injEq] at h
      obtain ⟨rfl, -⟩ := h
      exact le_trans (hq hqi) (hp hpi)

theorem pairP_consumes_left {α β : Type} {p : P α} {q : P β}
    (hp : Consumes p) (hq : Mono q) : Consumes (pairP p q) := by
  intro i r v h
  unfold pairP at h
  cases hpi : p i with
  | error e => rw [hpi] at h; exact absurd h (by simp)
  | ok x =>
    obtain ⟨i1, a⟩ := x
    rw [hpi] at h
    simp only [] at h
    cases hqi : q i1 with
    | error e => rw [hqi] at h; exact absurd h (by simp)
    | ok y =>
      obtain ⟨i2, b⟩ := y
      rw [hqi] at h
      simp only [Except.ok.injEq, Prod.mk.injEq] at h
      obtain ⟨rfl, -⟩ := h
      exact lt_of_le_of_lt (hq hqi) (hp hpi)

theorem pairP_consumes_right {α β : Type} {p : P α} {q : P β}
    (hp : Mono p) (hq : Consumes q) : Consumes (pairP p q) := by
  intro i r v h
  unfold pairP at h
  cases hpi : p i with
  | error e => rw [hpi] at h; exact absurd h (by simp)
  | ok x =>
    obtain ⟨i1, a⟩ := x
    rw [hpi] at h
    simp only [] at h
    cases hqi : q i1 with
    | error e => rw [hqi] at h; exact absurd h (by simp)
    | ok y =>
      obtain ⟨i2, b⟩ := y
      rw [hqi] at h
      simp only [Except.ok.injEq, Prod.mk.injEq] at h
      obtain ⟨rfl, -⟩ := h
      exact lt_of_lt_of_le (hq hqi) (hp hpi)

theorem precededP_mono {α β : Type} {p : P α} {q : P β} (hp : Mono p) (hq : Mono q) :
    Mono (precededP p q) :=
  pmap_mono _ (pairP_mono hp hq)

theorem precededP_consumes_right {α β : Type} {p : P α} {q : P β}
    (hp : Mono p) (hq : Consumes q) : Consumes (precededP p q) :=
  pmap_consumes _ (pairP_consumes_right hp hq)

theorem terminatedP_mono {α β : Type} {p : P α} {q : P β} (hp : Mono p) (hq : Mono q) :
    Mono (terminatedP p q) :=
  pmap_mono _ (pairP_mono hp hq)

theorem terminatedP_consumes_right {α β : Type} {p : P α} {q : P β}
    (hp : Mono p) (hq : Consumes q) : Consumes (terminatedP p q) :=
  pmap_consumes _ (pairP_consumes_right hp hq)

theorem opt_mono {α : Type} {p : P α} (hp : Mono p) : Mono (opt p) := by
  intro i r v h
  unfold opt at h
  cases hpi : p i with
  | ok x =>
    obtain ⟨r1, v1⟩ := x
    rw [hpi] at h
    simp only [Except.ok.injEq, Prod.mk.injEq] at h
    obtain ⟨rfl, -⟩ := h
    exact hp hpi
  | error e =>
    rw [hpi] at h
    simp only [Except.ok.injEq, Prod.mk.injEq] at h
    obtain ⟨rfl, -⟩ := h
    exact le_rfl

theorem alt2_mono {α : Type} {p q : P α} (hp : Mono p) (hq : Mono q) :
    Mono (alt2 p q) := by
  intro i r v h
  unfold alt2 at h
  cases hpi : p i with
  | ok x =>
    obtain ⟨r1, v1⟩ := x
    rw [hpi] at h
    simp only [Except.ok.injEq, Prod.mk.injEq] at h
    obtain ⟨rfl, -⟩ := h
    exact hp hpi
  | error e1 =>
    rw [hpi] at h
    simp only [] at h
    cases hqi : q i with
    | ok y =>
      obtain ⟨r2, v2⟩ := y
      rw [hqi] at h
      simp only [Except.ok.injEq, Prod.mk.injEq] at h
      obtain ⟨rfl, -⟩ := h
      exact hq hqi
    | error e2 => rw [hqi] at h; exact absurd h (by simp)

theorem alt2_consumes {α : Type} {p q : P α} (hp : Consumes p) (hq : Consumes q) :
    Consumes (alt2 p q) := by
  intro i r v h
  unfold alt2 at h
  cases hpi : p i with
  | ok x =>
    obtain ⟨r1, v1⟩ := x
    rw [hpi] at h
    simp only [Except.ok.injEq, Prod.mk.injEq] at h
    obtain ⟨rfl, -⟩ := h
    exact hp hpi
  | error e1 =>
    rw [hpi] at h
    simp only [] at h
    cases hqi : q i with
    | ok y =>
      obtain ⟨r2, v2⟩ := y
      rw [hqi] at h
      simp only [Except.ok.injEq, Prod.mk.injEq] at h
      obtain ⟨rfl, -⟩ := h
      exact hq hqi
    | error e2 => rw [hqi] at h; exact absurd h (by simp)

theorem many0_go_mono {α : Type} (p : P α) :
    ∀ fuel i r vs, many0_go p fuel i = .ok (r, vs) → r.length ≤ i.length := by
  intro fuel
  induction fuel with
  | zero => intro i r vs h; exact absurd h (by simp [many0_go])
  | succ f ih =>
    intro i r vs h
    unfold many0_go at h
    cases hpi : p i with
    | error e =>
      rw [hpi] at h
      simp only [Except.ok.injEq, Prod.mk.injEq] at h
      obtain ⟨rfl, -⟩ := h
      exact le_rfl
    | ok x =>
      obtain ⟨r1, v1⟩ := x
      rw [hpi] at h
      simp only [] at h
      by_cases hlen : r1.length < i.length
      · rw [if_pos hlen] at h
        cases hrec : many0_go p f r1 with
        | ok y =>
          obtain ⟨r2, vs2⟩ := y
          rw [hrec] at h
          simp only [Except.ok.injEq, Prod.mk.injEq] at h
          obtain ⟨rfl, -⟩ := h
          exact le_trans (ih r1 r2 vs2 hrec) (Nat.le_of_lt hlen)
        | error e => rw [hrec] at h; exact absurd h (by simp)
      · rw [if_neg hlen] at h; exact absurd h (by simp)

theorem many0_mono {α : Type} (p : P α) : Mono (many0 p) :=
  fun i r v h => many0_go_mono p (i.length + 1) i r v h

theorem many1_consumes {α : Type} (p : P α) : Consumes (many1 p) := by
  intro i r v h
  unfold many1 at h
  cases hpi : p i with
  | error e => rw [hpi] at h; exact absurd h (by simp)
  | ok x =>
    obtain ⟨r1, v1⟩ := x
    rw [hpi] at h
    simp only [] at h
    by_cases hlen : r1.length < i.length
    · rw [if_pos hlen] at h
      cases hrec : many0_go p (r1.length + 1) r1 with
      | ok y =>
        obtain ⟨r2, vs⟩ := y
        rw [hrec] at h
        simp only [Except.ok.injEq, Prod.mk.injEq] at h
        obtain ⟨rfl, -⟩ := h
        exact lt_of_le_of_lt (many0_go_mono p _ _ _ _ hrec) hlen
      | error e => rw [hrec] at h; exact absurd h (by simp)
    · rw [if_neg hlen] at h; exact absurd h (by simp)

theorem sepList1_go_mono {α β : Type} {sep : P β} {elem : P α} (he : Mono elem) :
    ∀ fuel i1 acc r vs, sepList1_go sep elem fuel i1 acc = .ok (r, vs) →
      r.length ≤ i1.length := by
  intro fuel
  induction fuel with
  | zero => intro i1 acc r vs h; exact absurd h (by simp [sepList1_go])
  | succ f ih =>
    intro i1 acc r vs h
    unfold sepList1_go at h
    cases hs : sep i1 with
    | error e =>
      rw [hs] at h
      simp only [Except.ok.injEq, Prod.mk.injEq] at h
      obtain ⟨rfl, -⟩ := h
      exact le_rfl
    | ok x =>
      obtain ⟨i2, b⟩ := x
      rw [hs] at h
      simp only [] at h
      by_cases hlen : i2.length < i1.length
      · rw [if_pos hlen] at h
        cases helem : elem i2 with
        | error e =>
          rw [helem] at h
          simp only [Except.ok.injEq, Prod.mk.injEq] at h
          obtain ⟨rfl, -⟩ := h
          exact le_rfl
        | ok y =>
          obtain ⟨i3, v3⟩ := y
          rw [helem] at h
          have h3 : i3.length ≤ i2.length := he helem
          exact le_trans (ih i3 _ r vs h) (le_trans h3 (Nat.le_of_lt hlen))
      · rw [if_neg hlen] at h; exact absurd h (by simp)

theorem sepList1_mono {α β : Type} {sep : P β} {elem : P α} (he : Mono elem) :
    Mono (sepList1 sep elem) := by
  intro i r v h
  unfold sepList1 at h
  cases he1 : elem i with
  | error e => rw [he1] at h; exact absurd h (by simp)
  | ok x =>
    obtain ⟨i1, v1⟩ := x
    rw [he1] at h
    exact le_trans (sepList1_go_mono he _ i1 _ r v h) (he he1)

theorem many0_go_total {α : Type} {p : P α} (hp : Consumes p) :
    ∀ fuel i, i.length < fuel → ∃ r vs, many0_go p fuel i = .ok (r, vs) := by
  intro fuel
  induction fuel with
  | zero => intro i hi; exact absurd hi (Nat.not_lt_zero _)
  | succ f ih =>
    intro i hi
    cases hpi : p i with
    | error e =>
      exact ⟨i, [], by unfold many0_go; rw [hpi]⟩
    | ok x =>
      obtain ⟨r1, v1⟩ := x
      have hlt : r1.length < i.length := hp hpi
      obtain ⟨r2, vs, hrec⟩ := ih r1 (by omega)
      refine ⟨r2, v1 :: vs, ?_⟩
      unfold many0_go
      simp only [hpi, hrec, if_pos hlt]

theorem many0_go_last {α : Type} (p : P α) :
    ∀ fuel i r vs, many0_go p fuel i = .ok (r, vs) → ∃ e, p r = .error e := by
  intro fuel
  induction fuel with
  | zero => intro i r vs h; exact absurd h (by simp [many0_go])
  | succ f ih =>
    intro i r vs h
    unfold many0_go at h
    cases hpi : p i with
    | error e =>
      rw [hpi] at h
      simp only [Except.ok.injEq, Prod.mk.injEq] at h
      obtain ⟨rfl, -⟩ := h
      exact ⟨e, hpi⟩
    | ok x =>
      obtain ⟨r1, v1⟩ := x
      rw [hpi] at h
      simp only [] at h
      by_cases hlen : r1.length < i.length
      · rw [if_pos hlen] at h
        cases hrec : many0_go p f r1 with
        | ok y =>
          obtain ⟨r2, vs2⟩ := y
          rw [hrec] at h
          simp only [Except.ok.injEq, Prod.mk.injEq] at h
          obtain ⟨rfl, -⟩ := h
          exact ih r1 r2 vs2 hrec
        | error e => rw [hrec] at h; exact absurd h (by simp)
      · rw [if_neg hlen] at h; exact absurd h (by simp)

/-! Grammar-rule lemmas: the monotonicity and consumption facts needed to
show the chapter rule total. -/

theorem string_val_mono : Mono string_val :=
  pmap_mono _ (many1_consumes _).mono

theorem string_val_consumes : Consumes string_val :=
  pmap_consumes _ (many1_consumes _)

theorem str_trimmed_mono : Mono str_trimmed :=
  pmap_mono _ string_val_mono

theorem maybe_space_mono {α : Type} {f : P α} (hf : Mono f) : Mono (maybe_space f) :=
  precededP_mono (many0_mono _) hf

theorem many0_newlines_mono : Mono many0_newlines :=
  pmap_mono _ (many0_mono _)

theorem many1_newlines_mono : Mono many1_newlines :=
  pmap_mono _ (many1_consumes _).mono

theorem many1_newlines_consumes : Consumes many1_newlines :=
  pmap_consumes _ (many1_consumes _)

theorem maybe_newline_mono {α : Type} {f : P α} (hf : Mono f) : Mono (maybe_newline f) :=
  precededP_mono many0_newlines_mono hf

theorem maybe_newline_consumes {α : Type} {f : P α} (hf : Consumes f) :
    Consumes (maybe_newline f) :=
  precededP_consumes_right many0_newlines_mono hf

theorem newline_terminated_mono {α : Type} {f : P α} (hf : Mono f) :
    Mono (newline_terminated f) :=
  terminatedP_mono hf many1_newlines_mono

theorem newline_terminated_consumes {α : Type} {f : P α} (hf : Mono f) :
    Consumes (newline_terminated f) :=
  terminatedP_consumes_right hf many1_newlines_consumes

theorem key_val_mono : Mono key_val := by
  unfold key_val sepPairP equal
  exact pmap_mono _ (pairP_mono str_trimmed_mono
    (pairP_mono (maybe_space_mono (one_token_consumes _).mono)
      (maybe_space_mono str_trimmed_mono)))

theorem attrs_mono : Mono attrs :=
  pmap_mono _ (many0_mono _)

theorem attrs_inner_consumes : Consumes (newline_terminated (maybe_newline key_val)) :=
  newline_terminated_consumes (maybe_newline_mono key_val_mono)

theorem attrs_ok (i : List Token) : ∃ r a, attrs i = .ok (r, a) := by
  obtain ⟨r, vs, h⟩ :=
    many0_go_total attrs_inner_consumes (i.length + 1) i (by omega)
  refine ⟨r, collectMap vs, ?_⟩
  unfold attrs pmap many0
  rw [h]

theorem dict_meaning_mono : Mono dict_meaning := by
  unfold dict_meaning sepPairP equal semicolon
  exact pmap_mono _ (pmap_mono _ (pairP_mono str_trimmed_mono
    (pairP_mono (maybe_space_mono (one_token_consumes _).mono)
      (maybe_space_mono (sepList1_mono (maybe_space_mono str_trimmed_mono))))))

theorem org_frag_dict_mono : Mono org_frag_dict := by
  unfold org_frag_dict delimitedP angle_start angle_end
  exact pmap_mono _ (pairP_mono (one_token_consumes _).mono
    (pairP_mono
      (maybe_space_mono (alt2_mono dict_meaning_mono (pmap_mono _ str_trimmed_mono)))
      (maybe_space_mono (one_token_consumes _).mono)))

theorem original_sentence_mono : Mono original_sentence :=
  newline_terminated_mono (many0_mono _)

theorem lines_separator_mono : Mono lines_separator := by
  unfold lines_separator dash
  exact newline_terminated_mono
    (precededP_mono (one_token_consumes _).mono
      (maybe_space_mono (opt_mono str_trimmed_mono)))

theorem tl_sentence_mono : Mono tl_sentence :=
  pmap_mono _ (pairP_mono (newline_terminated_mono string_val_mono)
    (maybe_newline_mono attrs_mono))

theorem linetag_consumes : Consumes linetag := by
  unfold linetag delimitedP at'
  exact pmap_consumes _ (pairP_consumes_left (one_token_consumes _)
    (pairP_mono (maybe_space_mono string_val_mono) many1_newlines_mono))

theorem sentence_consumes : Consumes sentence :=
  pmap_consumes _ (pairP_consumes_left linetag_consumes
    (pairP_mono (maybe_newline_mono original_sentence_mono)
      (pairP_mono (maybe_newline_mono attrs_mono) (many0_mono _))))

/-- The chapter rule never fails: its leading attrs block and its
zero-or-more sentence loop always succeed. -/
theorem chapter_ok (fs : FS) (i : List Token) :
    ∃ rest ch, chapter fs i = .ok (rest, ch) := by
  obtain ⟨i1, a, ha⟩ := attrs_ok i
  obtain ⟨rest, ss, hss⟩ :=
    many0_go_total (maybe_newline_consumes sentence_consumes) (i1.length + 1) i1
      (by omega)
  have hpair : pairP attrs (many0 (maybe_newline sentence)) i = .ok (rest, (a, ss)) := by
    unfold pairP many0
    simp only [ha, hss]
  refine ⟨rest, chapterOfParts fs (a, ss), ?_⟩
  unfold chapter pmap
  rw [hpair]

/-- Whatever residual the chapter rule leaves is a point where the
sentence rule (with leading blank lines allowed) fails: the rest of the
chapter parse is exactly the point where its sentence loop stopped. -/
theorem chapter_rest_err {fs : FS} {i rest : List Token} {ch : Chapter}
    (h : chapter fs i = .ok (rest, ch)) :
    ∃ e, maybe_newline sentence rest = .error e := by
  unfold chapter pmap pairP at h
  cases ha : attrs i with
  | error e => rw [ha] at h; exact absurd h (by simp)
  | ok x =>
    obtain ⟨i1, a⟩ := x
    rw [ha] at h
    simp only [] at h
    cases hm : many0 (maybe_newline sentence) i1 with
    | error e => rw [hm] at h; exact absurd h (by simp)
    | ok y =>
      obtain ⟨r2, ss⟩ := y
      rw [hm] at h
      simp only [Except.ok.injEq, Prod.mk.injEq] at h
      obtain ⟨rfl, -⟩ := h
      exact many0_go_last _ (i1.length + 1) i1 r2 ss hm

/-! Claim theorems. -/

/-- C1, counterexample: the Resolution Pass is not idempotent for every
Chapter.  The chapter parsed from `"@s1\n<<x>> <<x = m>>\n"` has a lookup
of `x` before the inline definition of `x`; the first run leaves the
lookup unresolved and then learns `x`, so the second run rewrites the
lookup, changing a fragment. -/
theorem C1_counterexample :
    chapter_from_str fsNone "@s1\n<<x>> <<x = m>>\n".toList = .ok lookupBeforeDef ∧
    lookupBeforeDef.process.process ≠ lookupBeforeDef.process :=
  ⟨by decide, by decide⟩

/-- C1, amended: for every Chapter, a second run of the Resolution Pass
inserts no new dictionary entry (the dictionary is unchanged); and if
after one run no remaining DictLookup names a word of the resulting
dictionary, the second run changes nothing at all. -/
theorem claim_C1 (c : Chapter) :
    c.process.process.dictionary = c.process.dictionary ∧
    (no_resolvable_lookup c.process = true → c.process.process = c.process) :=
  process_second_pass c

/-- C1, witness: a chapter whose definition of `x` precedes its lookup
satisfies the side condition, and there the pass is idempotent. -/
theorem C1_witness :
    no_resolvable_lookup defBeforeLookup.process = true ∧
    defBeforeLookup.process.process = defBeforeLookup.process :=
  ⟨by decide, (claim_C1 defBeforeLookup).2 (by decide)⟩

/-- C2: lossless lexing — for every input, concatenating the content of
all tokens produced by get_tokens, in order, reproduces the input. -/
theorem claim_C2 (s : List Char) :
    (((get_tokens s).getD []).map Token.content).flatten = s := by
  rw [get_tokens_eq s]
  exact all_tokens_join s

/-- C3, counterexample: in a chapter with `<<x = m1>>` before `<<x = m2>>`
the pass resolves the dictionary and lookups to `m1`, but the second
definition's own fragment still carries `m2`, so not every fragment
annotating `x` carries `[m1]`. -/
theorem C3_counterexample :
    (twoDefsChapter "x".toList "m1".toList "m2".toList).process.dictionary =
      [("x".toList, ["m1".toList])] ∧
    OrgFragment.Meaning "x".toList ["m2".toList] ∈
      ((twoDefsChapter "x".toList "m1".toList "m2".toList).process.sentences.map
        Sentence.original).flatten ∧
    ["m2".toList] ≠ ["m1".toList] := by
  refine ⟨by decide, by decide, by decide⟩

/-- C3, amended: in a chapter defining `x` twice with different meanings
(first `m1`, later `m2`, a lookup of `x` in between, empty starting
dictionary), the pass puts `[m1]` in the dictionary and resolves the
lookup to `[m1]`, but leaves each Meaning fragment carrying its own
inline meanings, so the second definition's fragment still shows `m2`. -/
theorem claim_C3 (x m1 m2 : Str) (_h : m1 ≠ m2) :
    (twoDefsChapter x m1 m2).process.dictionary = [(x, [m1])] ∧
    (twoDefsChapter x m1 m2).process.sentences.map Sentence.original =
      [[OrgFragment.Meaning x [m1], OrgFragment.Meaning x [m1],
        OrgFragment.Meaning x [m2]]] := by
  unfold twoDefsChapter Chapter.process
  simp [processSentences, processFrags, processFrag, alist_get]

/-- C3, witness: the amended statement applied at the concrete words used
by the specification's example. -/
theorem C3_witness :
    "m1".toList ≠ "m2".toList ∧
    (twoDefsChapter "x".toList "m1".toList "m2".toList).process.dictionary =
      [("x".toList, ["m1".toList])] :=
  ⟨by decide, (claim_C3 "x".toList "m1".toList "m2".toList (by decide)).1⟩

/-- C4: the end-to-end scenario — the given input parses to a chapter
titled Demo with exactly one sentence labelled s1, original fragments
[Simple "Hello ", DictLookup "world"], and the single unlabeled
translation "Bonjour" keyed "0". -/
theorem claim_C4 :
    chapter_from_str fsNone
      "title = Demo\n\n@s1\nHello <<world>>\n---\nBonjour\n".toList = .ok expC4 := by
  decide

/-- C5: the chapter rule never fails on any token list; Chapter::from_str
errs exactly when the chapter rule leaves unconsumed tokens, and in that
case the reported ParseError comes from re-parsing the residual as one
more sentence (which always fails, so the expect_err panic is
unreachable). -/
theorem claim_C5 (fs : FS) :
    (∀ toks : List Token, ∃ rest ch, chapter fs toks = .ok (rest, ch)) ∧
    (∀ s : List Char, ∃ rest ch,
      chapter fs (all_tokens s).2 = .ok (rest, ch) ∧
      ((∃ ch2, chapter_from_str fs s = .ok ch2) ↔ rest = []) ∧
      (rest = [] ∨ ∃ e, maybe_newline sentence rest = .error e ∧
        chapter_from_str fs s =
          .error (ParseError.new (all_tokens s).2 e.input e.ty))) := by
  constructor
  · exact fun toks => chapter_ok fs toks
  · intro s
    obtain ⟨rest, ch, hch⟩ := chapter_ok fs (all_tokens s).2
    have hfs : chapter_from_str fs s =
        (if rest.isEmpty then Except.ok ch
         else
           match maybe_newline sentence rest with
           | .error err => .error (ParseError.new (all_tokens s).2 err.input err.ty)
           | .ok _ =>
             .error ⟨.LogicalError "residual sentence reparse succeeded", 0, 0, []⟩) := by
      unfold chapter_from_str
      simp only [get_tokens_eq s, hch]
    by_cases hempty : rest.isEmpty
    · have hre : rest = [] := by simpa using hempty
      rw [hfs, if_pos hempty]
      exact ⟨rest, ch, hch, ⟨fun _ => hre, fun _ => ⟨ch, rfl⟩⟩, Or.inl hre⟩
    · have hre : rest ≠ [] := by simpa using hempty
      obtain ⟨e, he⟩ := chapter_rest_err hch
      have hfs2 : chapter_from_str fs s =
          .error (ParseError.new (all_tokens s).2 e.input e.ty) := by
        rw [hfs, if_neg hempty, he]
      refine ⟨rest, ch, hch, ?_, Or.inr ⟨e, he, hfs2⟩⟩
      constructor
      · rintro ⟨ch2, hc⟩
        rw [hfs2] at hc
        exact absurd hc (by simp)
      · intro hrest
        exact absurd hrest hre

/-- C6: the incomplete-input diagnostic — parsing `"@s1\n"` yields a
ParseError of kind Incomplete (hence Incomplete-or-SyntaxError) at line 2,
column 1. -/
theorem claim_C6 :
    ∃ pe, chapter_from_str fsNone "@s1\n".toList = .error pe ∧
      (pe.ty = .Incomplete ∨ pe.ty = .SyntaxError) ∧ pe.line = 2 ∧ pe.col = 1 :=
  ⟨⟨.Incomplete, 2, 1, []⟩, by decide, Or.inl rfl, rfl, rfl⟩

/-- C7, counterexample: on a one-token list whose token is neither Char
nor WhiteSpace, string_val matches zero tokens but fails with
TokenMismatch, not Incomplete (alt returns its first branch's error,
which is the character matcher's mismatch). -/
theorem C7_counterexample :
    string_val [⟨TokenType.At, ['@']⟩] =
      .error ⟨.TokenMismatch .At, [⟨TokenType.At, ['@']⟩]⟩ ∧
    ParseErrorType.TokenMismatch .At ≠ ParseErrorType.Incomplete := by
  refine ⟨by decide, by decide⟩

/-- C7, amended: when string_val matches zero tokens it fails with
Incomplete only on empty input; on a nonempty input whose first token is
neither Char nor WhiteSpace it fails with TokenMismatch of that token's
kind, at the full input position. -/
theorem claim_C7 :
    string_val [] = .error ⟨.Incomplete, []⟩ ∧
    ∀ t : Token, ∀ rest : List Token, t.ty ≠ .Char → t.ty ≠ .WhiteSpace →
      string_val (t :: rest) = .error ⟨.TokenMismatch t.ty, t :: rest⟩ := by
  constructor
  · decide
  · intro t rest h1 h2
    have hc : character (t :: rest) = .error ⟨.TokenMismatch t.ty, t :: rest⟩ := by
      unfold character
      simp only [one_token]
      rw [if_neg h1]
    have hs : space (t :: rest) = .error ⟨.TokenMismatch t.ty, t :: rest⟩ := by
      unfold space
      simp only [one_token]
      rw [if_neg h2]
    unfold string_val pmap many1 alt2
    simp only [hc, hs, MatchErr.or, MatchErr.append]

/-- C7, witness: the amended statement applied to the one-token list
holding an Equal token. -/
theorem C7_witness :
    (TokenType.Equal ≠ TokenType.Char) ∧ (TokenType.Equal ≠ TokenType.WhiteSpace) ∧
    string_val [⟨TokenType.Equal, ['=']⟩] =
      .error ⟨.TokenMismatch .Equal, [⟨TokenType.Equal, ['=']⟩]⟩ :=
  ⟨by decide, by decide,
    claim_C7.2 ⟨TokenType.Equal, ['=']⟩ [] (by decide) (by decide)⟩

/-- C8: annotation parsing — `"<<word = a;b>>"` tokenizes and parses with
org_frag_dict, consuming everything, to Meaning("word", ["a","b"]); and
`"<<word>>"` to DictLookup("word"). -/
theorem claim_C8 :
    org_frag_dict (all_tokens "<<word = a;b>>".toList).2 =
      .ok ([], OrgFragment.Meaning "word".toList ["a".toList, "b".toList]) ∧
    org_frag_dict (all_tokens "<<word>>".toList).2 =
      .ok ([], OrgFragment.DictLookup "word".toList) := by
  refine ⟨by decide, by decide⟩

/-- C9: attrs last-write-wins — `"a = 1\na = 2\n"` parses through attrs,
consuming everything, to the single binding a ↦ "2". -/
theorem claim_C9 :
    attrs (all_tokens "a = 1\na = 2\n".toList).2 =
      .ok ([], [("a".toList, "2".toList)]) := by
  decide

/-- C10: the tokenizer always consumes its entire input, so get_tokens
returns normally (its parser-error and leftover-input panic branches are
unreachable). -/
theorem claim_C10 (s : List Char) :
    (all_tokens s).1 = [] ∧ get_tokens s = some ((all_tokens s).2) :=
  ⟨all_tokens_complete s, get_tokens_eq s⟩

end Transdoc
